import Mathlib

/-!
Verification of the core of the Othello implementation (board, capture-ray
scanner, move generator, placement, turn state machine, heuristic agent).

The definitions below are a shallow embedding of the C++ source:
`BoardSquare` values are `Nat` (0 = empty, 1 = X, 2 = O), the board is a
total function from integer coordinates to values together with its size,
`std::set` is modelled as a strictly sorted list (lexicographic order),
and exceptions are modelled with explicit error values.
-/

/-- Lexicographic order on positions; mirrors `operator<` on
`std::pair<int,int>`, the ordering of `std::set` and `std::map` keys. -/
def posLt (a b : Int × Int) : Bool :=
  decide (a.1 < b.1) || (decide (a.1 = b.1) && decide (a.2 < b.2))

/-- Insertion into a sorted duplicate-free list; models `std::set::insert`. -/
def setInsert (x : Int × Int) : List (Int × Int) → List (Int × Int)
  | [] => [x]
  | y :: ys =>
    if posLt x y then x :: y :: ys
    else if x = y then y :: ys
    else y :: setInsert x ys

/-- Inserting a range of elements into a sorted set; models
`std::set::insert(first, last)`. -/
def setUnion (acc l : List (Int × Int)) : List (Int × Int) :=
  l.foldl (fun s x => setInsert x s) acc

/-- The invariant of the `std::set` model: strictly increasing entries. -/
def SortedSet (l : List (Int × Int)) : Prop :=
  List.Pairwise (fun a b => posLt a b = true) l

/-- The 8 compass directions checked for flippable pieces (source order). -/
def directions : List (Int × Int) :=
  [(-1, 0), (1, 0), (0, -1), (0, 1), (-1, -1), (-1, 1), (1, -1), (1, 1)]

/-- The board: `maxBoardSize` plus the square values.  In the C++ source the
squares live in a `std::map` keyed by every position of `[0,N)²`; here the
map is the function `cells`, meaningful on those positions. -/
structure Board where
  maxBoardSize : Nat
  cells : Int × Int → Nat

/-- The bounds test of the scanning loop:
`0 <= row < maxBoardSize && 0 <= col < maxBoardSize`. -/
def inBoundsB (N : Nat) (p : Int × Int) : Bool :=
  decide (0 ≤ p.1) && decide (p.1 < (N : Int)) &&
    decide (0 ≤ p.2) && decide (p.2 < (N : Int))

/-- `position.first += direction.first; position.second += direction.second`. -/
def stepPos (p d : Int × Int) : Int × Int := (p.1 + d.1, p.2 + d.2)

/-- `int opponent = (player == 1) ? 2 : 1;` -/
def oppOf (player : Nat) : Nat := if player = 1 then 2 else 1

/-- The scanning `while` loop of `Board::findFlippablePieces`, with explicit
fuel (the loop makes at most `maxBoardSize` in-bounds steps).  Returns the
`piecesToFlip` flag and the accumulated `toFlip` set (accumulated in ray
order; its members are exactly the scanned opponent squares). -/
def scanLoop (b : Board) (player opponent : Nat) (d : Int × Int) :
    Nat → Int × Int → List (Int × Int) → Bool × List (Int × Int)
  | 0, _, toFlip => (false, toFlip)
  | fuel + 1, pos, toFlip =>
    if inBoundsB b.maxBoardSize pos then
      if b.cells pos = opponent then
        scanLoop b player opponent d fuel (stepPos pos d) (toFlip ++ [pos])
      else if b.cells pos = player then
        (!toFlip.isEmpty, toFlip)
      else
        (false, toFlip)
    else
      (false, toFlip)

/-- `Board::findFlippablePieces`: scan from `position` in direction `d`; the
returned list is the `toFlip` out-parameter (cleared when the flag is
false), the returned flag is the function's return value. -/
def findFlippablePieces (b : Board) (position : Int × Int) (player : Nat)
    (d : Int × Int) : Bool × List (Int × Int) :=
  match scanLoop b player (oppOf player) d (b.maxBoardSize + 1) (stepPos position d) [] with
  | (true, toFlip) => (true, toFlip)
  | (false, _) => (false, [])

/-- The board positions in the iteration order of the `std::map`
(row-major, i.e. lexicographic on `(row, col)`). -/
def boardPositions (N : Nat) : List (Int × Int) :=
  (List.range (N * N)).map fun i => (((i / N : Nat) : Int), ((i % N : Nat) : Int))

/-- One direction of the accumulation loop of `Board::getValidMoves`: if
the scan reports flippable pieces, add them to the running union. -/
def accumDir (b : Board) (player : Nat) (pos : Int × Int)
    (acc : List (Int × Int)) (d : Int × Int) : List (Int × Int) :=
  if (findFlippablePieces b pos player d).1 then
    setUnion acc (findFlippablePieces b pos player d).2
  else acc

/-- The `totalFlippablePieces` accumulation of `Board::getValidMoves`:
union of the 8 per-direction scan results for one candidate position. -/
def totalFlippable (b : Board) (player : Nat) (pos : Int × Int) :
    List (Int × Int) :=
  directions.foldl (accumDir b player pos) []

/-- `Board::getValidMoves`: for every empty square (visited in map order),
if the union of the 8 directional scans is non-empty, record the move.
The result models the returned `std::map` as its ordered entry list. -/
def getValidMoves (b : Board) (player : Nat) :
    List ((Int × Int) × List (Int × Int)) :=
  (boardPositions b.maxBoardSize).filterMap fun pos =>
    if b.cells pos = 0 then
      if (totalFlippable b player pos).isEmpty then none
      else some (pos, totalFlippable b player pos)
    else none

/-- The runtime errors thrown by `BoardSquare::setPiece` and
`BoardSquare::flipPiece`. -/
inductive PlaceError where
  | occupiedCell
  | emptyCellFlip
deriving DecidableEq

/-- `BoardSquare::setPiece`: fails if the square is occupied. -/
def setPiece (value player : Nat) : Except PlaceError Nat :=
  if value ≠ 0 then .error .occupiedCell else .ok player

/-- `BoardSquare::flipPiece`: fails if the square is empty, otherwise flips
between 1 and 2. -/
def flipPiece (value : Nat) : Except PlaceError Nat :=
  if value = 0 then .error .emptyCellFlip
  else .ok (if value = 1 then 2 else 1)

/-- The value written by a successful flip. -/
def flipVal (value : Nat) : Nat := if value = 1 then 2 else 1

/-- Overwrite one cell of the board. -/
def updateCell (b : Board) (p : Int × Int) (v : Nat) : Board :=
  { b with cells := fun q => if q = p then v else b.cells q }

/-- The `for_each` flipping loop of `Board::placePiece`.  On a failing flip
the exception escapes with the board as mutated so far. -/
def flipLoop (b : Board) : List (Int × Int) → Board × Option PlaceError
  | [] => (b, none)
  | q :: rest =>
    match flipPiece (b.cells q) with
    | .error e => (b, some e)
    | .ok v => flipLoop (updateCell b q v) rest

/-- `Board::placePiece`: place the piece, then flip each piece of `toFlip`
in set-iteration order.  The second component models the exception (if any)
escaping the call; the first is the board state at that point. -/
def placePiece (b : Board) (position : Int × Int) (player : Nat)
    (toFlip : List (Int × Int)) : Board × Option PlaceError :=
  match setPiece (b.cells position) player with
  | .error e => (b, some e)
  | .ok v => flipLoop (updateCell b position v) toFlip

/-- The cell contents established by the `Board` constructor body for a
valid size: all empty except the four seeded center squares
(`center = maxBoardSize / 2`). -/
def initCells (N : Nat) : Int × Int → Nat := fun p =>
  let c : Int := ((N / 2 : Nat) : Int)
  if p = (c - 1, c - 1) then 1
  else if p = (c - 1, c) then 2
  else if p = (c, c - 1) then 2
  else if p = (c, c) then 1
  else 0

/-- The `Board` constructor: throws `std::invalid_argument` when
`size < 4`, otherwise produces the seeded board. -/
def mkBoard (size : Int) : Except String Board :=
  if size < 4 then .error "Board size must be at least 4."
  else .ok { maxBoardSize := size.toNat, cells := initCells size.toNat }

/-- The freshly initialized 4×4 board. -/
def theBoard4 : Board := { maxBoardSize := 4, cells := initCells 4 }

/-- The `std::count_if` tallies of `Board::showWinner`: number of board
squares holding value `v`. -/
def countOwned (b : Board) (v : Nat) : Nat :=
  (boardPositions b.maxBoardSize).countP fun p => decide (b.cells p = v)

/-- The outcome reported by `Board::showWinner`. -/
inductive GameResult where
  | xWins
  | oWins
  | draw
deriving DecidableEq

/-- The decision logic of `Board::showWinner` (`countX` is
`countOwned b 1`, `countO` is `countOwned b 2`). -/
def showWinner (b : Board) : GameResult :=
  if countOwned b 1 > countOwned b 2 then .xWins
  else if countOwned b 2 > countOwned b 1 then .oWins
  else .draw

/-- The mutable state of the `playGame` loop. -/
structure GameState where
  board : Board
  currentPlayer : Nat
  nextPlayer : Nat
  prevPlayerMoved : Bool
  gameHistory : List (Nat × (Int × Int))

/-- `std::map::at` on the valid-move map (ordered entry list). -/
def lookupMove : List ((Int × Int) × List (Int × Int)) → Int × Int →
    Option (List (Int × Int))
  | [], _ => none
  | (k, v) :: rest, q => if k = q then some v else lookupMove rest q

/-- One iteration of the `playGame` loop either continues with a new state
or breaks out of the loop (game over). -/
inductive StepOutcome where
  | next (s : GameState)
  | gameOver (s : GameState)

/-- One iteration of the `while (true)` loop of `playGame`.  `mv` is the
move returned by `getPlayerMove` / `getAIMove` (always a key of
`validMoves` for those providers).  `none` models an uncaught exception
(`map::at` on a non-key, or a `placePiece` failure). -/
def stepGame (s : GameState) (mv : Int × Int) : Option StepOutcome :=
  if (getValidMoves s.board s.currentPlayer).length = 0 then
    if s.prevPlayerMoved = false then some (.gameOver s)
    else
      some (.next { s with
        prevPlayerMoved := false
        currentPlayer := s.nextPlayer
        nextPlayer := s.currentPlayer })
  else
    match lookupMove (getValidMoves s.board s.currentPlayer) mv with
    | none => none
    | some caps =>
      match placePiece s.board mv s.currentPlayer caps with
      | (b2, none) =>
        some (.next { board := b2
                      currentPlayer := s.nextPlayer
                      nextPlayer := s.currentPlayer
                      prevPlayerMoved := true
                      gameHistory := (s.currentPlayer, mv) :: s.gameHistory })
      | (_, some _) => none

/-- The state entering the `playGame` loop: X to move, flag true, empty
history. -/
def initialState (b : Board) : GameState :=
  { board := b
    currentPlayer := 1
    nextPlayer := 2
    prevPlayerMoved := true
    gameHistory := [] }

/-- Game states reachable from a fresh board by iterating the loop body. -/
inductive Reachable : GameState → Prop
  | init (size : Int) (b : Board) :
      mkBoard size = Except.ok b → Reachable (initialState b)
  | step (s t : GameState) (mv : Int × Int) :
      Reachable s → stepGame s mv = some (StepOutcome.next t) → Reachable t

/-- A fully occupied 4×4 board (every square owned by X); neither player
has a legal move on it. -/
def fullBoard4 : Board := { maxBoardSize := 4, cells := fun _ => 1 }

/-- A state in which the current player has no moves and the previous turn
was already a pass: the loop terminates here. -/
def stuckState : GameState :=
  { board := fullBoard4
    currentPlayer := 1
    nextPlayer := 2
    prevPlayerMoved := false
    gameHistory := [] }

/-- Stable insertion used to model `std::list::sort` (stable). -/
def insSorted (le : Nat × (Int × Int) → Nat × (Int × Int) → Bool)
    (x : Nat × (Int × Int)) :
    List (Nat × (Int × Int)) → List (Nat × (Int × Int))
  | [] => [x]
  | y :: ys => if le x y then x :: y :: ys else y :: insSorted le x ys

/-- Stable sort used to model `std::list::sort`. -/
def listSort (le : Nat × (Int × Int) → Nat × (Int × Int) → Bool) :
    List (Nat × (Int × Int)) → List (Nat × (Int × Int))
  | [] => []
  | x :: xs => insSorted le x (listSort le xs)

/-- `operator<` on `std::pair<int, std::pair<int,int>>` (lexicographic),
the comparison of the move priority queue. -/
def movePairLt (a b : Nat × (Int × Int)) : Bool :=
  decide (a.1 < b.1) || (decide (a.1 = b.1) && posLt a.2 b.2)

/-- Maximum of a list with respect to `lt`; `listMax lt m l` is the top of
a `std::priority_queue` holding `m :: l`. -/
def listMax (lt : Nat × (Int × Int) → Nat × (Int × Int) → Bool) :
    Nat × (Int × Int) → List (Nat × (Int × Int)) → Nat × (Int × Int)
  | m, [] => m
  | m, x :: xs => listMax lt (if lt m x then x else m) xs

/-- The `(flipCount, position)` list built by `getAIMove` from the move
map (in map-iteration order). -/
def aiMoves (validMoves : List ((Int × Int) × List (Int × Int))) :
    List (Nat × (Int × Int)) :=
  validMoves.map fun m => (m.2.length, m.1)

/-- The move list after `moves.sort` with comparator
`a.first > b.first` (stable, descending flip counts). -/
def aiSorted (validMoves : List ((Int × Int) × List (Int × Int))) :
    List (Nat × (Int × Int)) :=
  listSort (fun a b => decide (b.1 ≤ a.1)) (aiMoves validMoves)

/-- `getAIMove`: build the `(flipCount, position)` list from the move map,
sort it descending by flip count, load the priority queue, and flip a coin:
heads (`r1 % 2 = 0`) picks the entry at random index `r2 % size` of the
sorted list, tails takes the queue's top (its maximal element under the
pair ordering).  The two `std::rand()` draws are the explicit parameters
`r1`, `r2`; an empty map is undefined behaviour in the original and is
mapped to a dummy position. -/
def getAIMove (validMoves : List ((Int × Int) × List (Int × Int)))
    (r1 r2 : Nat) : Int × Int :=
  match aiSorted validMoves with
  | [] => (0, 0)
  | m :: ms =>
    if r1 % 2 = 0 then ((m :: ms).getD (r2 % (m :: ms).length) m).2
    else (listMax movePairLt m ms).2

/-- Position reached after `k` steps from `origin` in direction `d`. -/
def rayPos (origin d : Int × Int) (k : Nat) : Int × Int :=
  (origin.1 + (k : Int) * d.1, origin.2 + (k : Int) * d.2)

/-- The first `k` positions strictly beyond `origin` along direction `d`. -/
def runList (origin d : Int × Int) (k : Nat) : List (Int × Int) :=
  (List.range k).map fun i => rayPos origin d (i + 1)

/-- A maximal capturable run for `player` from `origin` along `d`: `k ≥ 1`
opponent squares one step away, immediately followed by an in-bounds anchor
square owned by `player`. -/
def CaptureRun (b : Board) (player : Nat) (origin d : Int × Int) (k : Nat) :
    Prop :=
  1 ≤ k ∧
    (∀ i, 1 ≤ i → i ≤ k →
      inBoundsB b.maxBoardSize (rayPos origin d i) = true ∧
        b.cells (rayPos origin d i) = oppOf player) ∧
    inBoundsB b.maxBoardSize (rayPos origin d (k + 1)) = true ∧
    b.cells (rayPos origin d (k + 1)) = player

/-! ### Basic facts about positions, rays and runs -/

lemma inBoundsB_iff (N : Nat) (p : Int × Int) :
    inBoundsB N p = true ↔
      0 ≤ p.1 ∧ p.1 < (N : Int) ∧ 0 ≤ p.2 ∧ p.2 < (N : Int) := by
  simp [inBoundsB, and_assoc]

lemma oppOf_ne (p : Nat) : oppOf p ≠ p := by
  unfold oppOf
  split <;> omega

lemma stepPos_one (o d : Int × Int) : stepPos o d = rayPos o d 1 := by
  simp [stepPos, rayPos]

lemma stepPos_rayPos (o d : Int × Int) (n : Nat) :
    stepPos (rayPos o d n) d = rayPos o d (n + 1) := by
  unfold stepPos rayPos
  refine Prod.ext ?_ ?_ <;> · push_cast; ring

lemma runList_zero (o d : Int × Int) : runList o d 0 = [] := by
  simp [runList]

lemma runList_succ (o d : Int × Int) (j : Nat) :
    runList o d (j + 1) = runList o d j ++ [rayPos o d (j + 1)] := by
  simp [runList, List.range_succ]

lemma runList_length (o d : Int × Int) (k : Nat) :
    (runList o d k).length = k := by
  simp [runList]

lemma runList_isEmpty_false (o d : Int × Int) (k : Nat) (hk : 1 ≤ k) :
    (runList o d k).isEmpty = false := by
  rcases hr : runList o d k with _ | ⟨a, l⟩
  · have := runList_length o d k
    rw [hr] at this
    simp at this
    omega
  · simp

/-- Along any of the 8 directions, a ray position `k + 1` steps out that is
still in bounds forces `k + 1 ≤ N` (each step moves some coordinate by one
unit). -/
lemma ray_bound {N : Nat} {origin d : Int × Int} {k : Nat}
    (hd : d ∈ directions) (ho : inBoundsB N origin = true)
    (hray : inBoundsB N (rayPos origin d (k + 1)) = true) :
    k + 1 ≤ N := by
  rw [inBoundsB_iff] at ho hray
  simp only [directions, List.mem_cons, List.not_mem_nil, or_false] at hd
  rcases hd with rfl | rfl | rfl | rfl | rfl | rfl | rfl | rfl <;>
    · simp only [rayPos] at hray
      push_cast at hray ho ⊢
      omega

/-! ### The capture-ray scanner computes exactly the capturable run -/

/-- Completeness half: if a capturable run of length `k` exists, the loop
started `j + 1` steps out with the first `j` run cells accumulated reaches
the anchor and returns exactly the `k` run cells. -/
lemma scan_reaches (b : Board) (player : Nat) (origin d : Int × Int) (k : Nat)
    (hrun : ∀ i, 1 ≤ i → i ≤ k →
      inBoundsB b.maxBoardSize (rayPos origin d i) = true ∧
        b.cells (rayPos origin d i) = oppOf player)
    (hanc : inBoundsB b.maxBoardSize (rayPos origin d (k + 1)) = true)
    (hancv : b.cells (rayPos origin d (k + 1)) = player)
    (hk : 1 ≤ k) :
    ∀ fuel j, j ≤ k → k + 1 - j ≤ fuel →
      scanLoop b player (oppOf player) d fuel (rayPos origin d (j + 1))
          (runList origin d j) =
        (true, runList origin d k) := by
  intro fuel
  induction fuel with
  | zero => intro j hj hf; omega
  | succ fuel ih =>
    intro j hj hf
    by_cases hjk : j = k
    · subst hjk
      simp only [scanLoop, hanc, if_true, hancv]
      rw [runList_isEmpty_false origin d j hk,
        if_neg fun h : player = oppOf player => oppOf_ne player h.symm]
      rfl
    · have hstep := hrun (j + 1) (by omega) (by omega)
      simp only [scanLoop, hstep.1, if_true, hstep.2, if_pos rfl]
      rw [stepPos_rayPos, ← runList_succ]
      exact ih (j + 1) (by omega) (by omega)

/-- Soundness half: whenever the loop started `j + 1` steps out with the
first `j` run cells accumulated returns `true`, there is a capturable run
of some length `k ≥ max 1 j` and the returned list is exactly its cells. -/
lemma scan_sound (b : Board) (player : Nat) (origin d : Int × Int) :
    ∀ fuel j l,
      scanLoop b player (oppOf player) d fuel (rayPos origin d (j + 1))
          (runList origin d j) =
        (true, l) →
      ∃ k, j ≤ k ∧ 1 ≤ k ∧ l = runList origin d k ∧
        (∀ i, j + 1 ≤ i → i ≤ k →
          inBoundsB b.maxBoardSize (rayPos origin d i) = true ∧
            b.cells (rayPos origin d i) = oppOf player) ∧
        inBoundsB b.maxBoardSize (rayPos origin d (k + 1)) = true ∧
        b.cells (rayPos origin d (k + 1)) = player := by
  intro fuel
  induction fuel with
  | zero => intro j l h; simp [scanLoop] at h
  | succ fuel ih =>
    intro j l h
    simp only [scanLoop] at h
    by_cases hb : inBoundsB b.maxBoardSize (rayPos origin d (j + 1)) = true
    · rw [if_pos hb] at h
      by_cases hop : b.cells (rayPos origin d (j + 1)) = oppOf player
      · rw [if_pos hop, stepPos_rayPos, ← runList_succ] at h
        obtain ⟨k, hk0, hk1, hl, hrun, hanc, hancv⟩ := ih (j + 1) l h
        refine ⟨k, by omega, hk1, hl, ?_, hanc, hancv⟩
        intro i hi1 hi2
        rcases Nat.eq_or_lt_of_le hi1 with hij | hij
        · rw [← hij]; exact ⟨hb, hop⟩
        · exact hrun i (by omega) hi2
      · rw [if_neg hop] at h
        by_cases hpl : b.cells (rayPos origin d (j + 1)) = player
        · rw [if_pos hpl] at h
          obtain ⟨hflag, hl⟩ := Prod.mk.injEq .. ▸ h
          have hj1 : 1 ≤ j := by
            by_contra hj0
            have : j = 0 := by omega
            subst this
            rw [runList_zero] at hflag
            simp at hflag
          exact ⟨j, le_refl j, hj1, hl.symm, fun i h1 h2 => by omega,
            hb, hpl⟩
        · rw [if_neg hpl] at h
          simp at h
    · rw [if_neg hb] at h
      simp at h

/-- Claim C1: for every board, player, empty in-bounds origin and compass
direction, `findFlippablePieces` returns exactly the cells of the unique
capturable run (k ≥ 1 opponent cells followed by a same-player anchor) when
one exists, and the empty list when none exists (adjacent cell empty or
off-board, run interrupted by an empty cell, board edge reached without an
anchor, or anchor adjacent with zero opponent cells between). -/
theorem C1_findFlippablePieces_characterization
    (b : Board) (player : Nat) (origin d : Int × Int)
    (hp : player = 1 ∨ player = 2)
    (hd : d ∈ directions)
    (ho : inBoundsB b.maxBoardSize origin = true)
    (he : b.cells origin = 0) :
    (∀ k, CaptureRun b player origin d k →
      (findFlippablePieces b origin player d).2 = runList origin d k) ∧
    ((∀ k, ¬ CaptureRun b player origin d k) →
      (findFlippablePieces b origin player d).2 = []) := by
  constructor
  · rintro k ⟨hk, hrun, hanc, hancv⟩
    have hbound : k + 1 ≤ b.maxBoardSize := ray_bound hd ho hanc
    have hmain := scan_reaches b player origin d k hrun hanc hancv hk
      (b.maxBoardSize + 1) 0 (by omega) (by omega)
    rw [runList_zero] at hmain
    rw [findFlippablePieces, stepPos_one, hmain]
  · intro hno
    rw [findFlippablePieces, stepPos_one]
    rcases hsc : scanLoop b player (oppOf player) d (b.maxBoardSize + 1)
        (rayPos origin d 1) [] with ⟨flag, l⟩
    cases flag
    · rfl
    · exfalso
      rw [← runList_zero origin d] at hsc
      obtain ⟨k, _, hk1, _, hrun, hanc, hancv⟩ :=
        scan_sound b player origin d (b.maxBoardSize + 1) 0 l hsc
      exact hno k ⟨hk1, fun i h1 h2 => hrun i (by omega) h2, hanc, hancv⟩

/-- Witness for C1 at a concrete input: the 4×4 starting board, player X,
origin (0,2), direction south; the hypotheses hold and the conclusion is
obtained from the theorem. -/
theorem C1_findFlippablePieces_characterization_witness :
    ((1 : Nat) = 1 ∨ (1 : Nat) = 2) ∧
      ((1, 0) : Int × Int) ∈ directions ∧
      inBoundsB theBoard4.maxBoardSize (0, 2) = true ∧
      theBoard4.cells (0, 2) = 0 ∧
      ((∀ k, CaptureRun theBoard4 1 (0, 2) (1, 0) k →
        (findFlippablePieces theBoard4 (0, 2) 1 (1, 0)).2 =
          runList (0, 2) (1, 0) k) ∧
      ((∀ k, ¬ CaptureRun theBoard4 1 (0, 2) (1, 0) k) →
        (findFlippablePieces theBoard4 (0, 2) 1 (1, 0)).2 = [])) :=
  ⟨by decide, by decide, by decide, by decide,
    C1_findFlippablePieces_characterization theBoard4 1 (0, 2) (1, 0)
      (by decide) (by decide) (by decide) (by decide)⟩

/-! ### The ordered-set model (`std::set` as strictly sorted list) -/

lemma posLt_irrefl (a : Int × Int) : posLt a a = false := by
  simp [posLt]

lemma posLt_trans {a b c : Int × Int} (h1 : posLt a b = true)
    (h2 : posLt b c = true) : posLt a c = true := by
  obtain ⟨a1, a2⟩ := a
  obtain ⟨b1, b2⟩ := b
  obtain ⟨c1, c2⟩ := c
  simp only [posLt, Bool.or_eq_true, Bool.and_eq_true, decide_eq_true_eq] at *
  omega

lemma posLt_total {a b : Int × Int} (h : a ≠ b) :
    posLt a b = true ∨ posLt b a = true := by
  obtain ⟨a1, a2⟩ := a
  obtain ⟨b1, b2⟩ := b
  simp only [ne_eq, Prod.mk.injEq, not_and] at h
  simp only [posLt, Bool.or_eq_true, Bool.and_eq_true, decide_eq_true_eq]
  by_cases h1 : a1 = b1
  · subst h1
    have h2 : a2 ≠ b2 := by intro hc; exact h rfl hc
    omega
  · omega

lemma posLt_ne {a b : Int × Int} (h : posLt a b = true) : a ≠ b := by
  intro hc
  subst hc
  rw [posLt_irrefl] at h
  exact Bool.false_ne_true h

lemma sortedSet_nodup {l : List (Int × Int)} (h : SortedSet l) : l.Nodup :=
  h.imp fun hab => posLt_ne hab

lemma mem_setInsert (x a : Int × Int) (l : List (Int × Int)) :
    a ∈ setInsert x l ↔ a = x ∨ a ∈ l := by
  induction l with
  | nil => simp [setInsert]
  | cons y ys ih =>
    unfold setInsert
    by_cases h1 : posLt x y = true
    · rw [if_pos h1]
      simp only [List.mem_cons]
    · rw [if_neg h1]
      by_cases h2 : x = y
      · subst h2
        rw [if_pos rfl]
        simp only [List.mem_cons]
        tauto
      · rw [if_neg h2]
        simp only [List.mem_cons, ih]
        tauto

lemma sorted_setInsert (x : Int × Int) {l : List (Int × Int)}
    (h : SortedSet l) : SortedSet (setInsert x l) := by
  induction l with
  | nil => simp [setInsert, SortedSet]
  | cons y ys ih =>
    rw [SortedSet, List.pairwise_cons] at h
    obtain ⟨hy, hys⟩ := h
    unfold setInsert
    by_cases h1 : posLt x y = true
    · rw [if_pos h1]
      rw [SortedSet, List.pairwise_cons]
      refine ⟨?_, List.pairwise_cons.mpr ⟨hy, hys⟩⟩
      intro b hb
      rcases List.mem_cons.mp hb with rfl | hb
      · exact h1
      · exact posLt_trans h1 (hy b hb)
    · rw [if_neg h1]
      by_cases h2 : x = y
      · rw [if_pos h2]
        exact List.pairwise_cons.mpr ⟨hy, hys⟩
      · rw [if_neg h2]
        rw [SortedSet, List.pairwise_cons]
        refine ⟨?_, ih hys⟩
        intro b hb
        rcases (mem_setInsert x b ys).mp hb with rfl | hb
        · rcases posLt_total h2 with hxy | hyx
          · exact absurd hxy h1
          · exact hyx
        · exact hy b hb

lemma mem_setUnion (a : Int × Int) :
    ∀ (l acc : List (Int × Int)), a ∈ setUnion acc l ↔ a ∈ acc ∨ a ∈ l := by
  intro l
  induction l with
  | nil => simp [setUnion]
  | cons x xs ih =>
    intro acc
    show a ∈ setUnion (setInsert x acc) xs ↔ _
    rw [ih, mem_setInsert]
    simp only [List.mem_cons]
    tauto

lemma sorted_setUnion :
    ∀ (l acc : List (Int × Int)), SortedSet acc → SortedSet (setUnion acc l) := by
  intro l
  induction l with
  | nil => intro acc h; exact h
  | cons x xs ih =>
    intro acc h
    exact ih (setInsert x acc) (sorted_setInsert x h)

/-! ### Contents of the scanner output and of the capture union -/

lemma scanLoop_mem (b : Board) (player opponent : Nat) (d : Int × Int)
    (a : Int × Int) :
    ∀ fuel pos acc, a ∈ (scanLoop b player opponent d fuel pos acc).2 →
      a ∈ acc ∨ b.cells a = opponent := by
  intro fuel
  induction fuel with
  | zero => intro pos acc h; exact Or.inl h
  | succ fuel ih =>
    intro pos acc h
    rw [scanLoop] at h
    by_cases hb : inBoundsB b.maxBoardSize pos = true
    · rw [if_pos hb] at h
      by_cases hop : b.cells pos = opponent
      · rw [if_pos hop] at h
        rcases ih (stepPos pos d) (acc ++ [pos]) h with hmem | hcell
        · rcases List.mem_append.mp hmem with hmem | hmem
          · exact Or.inl hmem
          · rw [List.mem_singleton.mp hmem]
            exact Or.inr hop
        · exact Or.inr hcell
      · rw [if_neg hop] at h
        by_cases hpl : b.cells pos = player
        · rw [if_pos hpl] at h
          exact Or.inl h
        · rw [if_neg hpl] at h
          exact Or.inl h
    · rw [if_neg hb] at h
      exact Or.inl h

lemma mem_findFlippablePieces {b : Board} {pos : Int × Int} {player : Nat}
    {d : Int × Int} {a : Int × Int}
    (h : a ∈ (findFlippablePieces b pos player d).2) :
    b.cells a = oppOf player := by
  rw [findFlippablePieces] at h
  rcases hsc : scanLoop b player (oppOf player) d (b.maxBoardSize + 1)
      (stepPos pos d) [] with ⟨flag, l⟩
  rw [hsc] at h
  cases flag
  · simp at h
  · simp only at h
    have := scanLoop_mem b player (oppOf player) d a (b.maxBoardSize + 1)
      (stepPos pos d) []
    rw [hsc] at this
    rcases this h with hmem | hcell
    · simp at hmem
    · exact hcell

lemma mem_accumFold (b : Board) (player : Nat) (pos a : Int × Int) :
    ∀ (ds : List (Int × Int)) (acc : List (Int × Int)),
      a ∈ List.foldl (accumDir b player pos) acc ds ↔
        a ∈ acc ∨ ∃ d ∈ ds, a ∈ (findFlippablePieces b pos player d).2 := by
  intro ds
  induction ds with
  | nil => simp
  | cons d ds ih =>
    intro acc
    show a ∈ List.foldl _ (accumDir b player pos acc d) ds ↔ _
    rw [ih]
    unfold accumDir
    simp only [List.mem_cons]
    by_cases hflag : (findFlippablePieces b pos player d).1 = true
    · rw [if_pos hflag, mem_setUnion]
      constructor
      · rintro ((h | h) | ⟨d', hd', h⟩)
        · exact Or.inl h
        · exact Or.inr ⟨d, Or.inl rfl, h⟩
        · exact Or.inr ⟨d', Or.inr hd', h⟩
      · rintro (h | ⟨d', (rfl | hd'), h⟩)
        · exact Or.inl (Or.inl h)
        · exact Or.inl (Or.inr h)
        · exact Or.inr ⟨d', hd', h⟩
    · rw [if_neg hflag]
      have hempty : (findFlippablePieces b pos player d).2 = [] := by
        rw [findFlippablePieces]
        rcases hsc : scanLoop b player (oppOf player) d (b.maxBoardSize + 1)
            (stepPos pos d) [] with ⟨flag, l⟩
        cases flag
        · rfl
        · rw [findFlippablePieces, hsc] at hflag
          simp at hflag
      constructor
      · rintro (h | ⟨d', hd', h⟩)
        · exact Or.inl h
        · exact Or.inr ⟨d', Or.inr hd', h⟩
      · rintro (h | ⟨d', (rfl | hd'), h⟩)
        · exact Or.inl h
        · rw [hempty] at h
          simp at h
        · exact Or.inr ⟨d', hd', h⟩

lemma mem_totalFlippable (b : Board) (player : Nat) (pos a : Int × Int) :
    a ∈ totalFlippable b player pos ↔
      ∃ d ∈ directions, a ∈ (findFlippablePieces b pos player d).2 := by
  rw [totalFlippable, mem_accumFold]
  simp

lemma sorted_totalFlippable (b : Board) (player : Nat) (pos : Int × Int) :
    SortedSet (totalFlippable b player pos) := by
  rw [totalFlippable]
  have : ∀ (ds : List (Int × Int)) (acc : List (Int × Int)), SortedSet acc →
      SortedSet (List.foldl (accumDir b player pos) acc ds) := by
    intro ds
    induction ds with
    | nil => intro acc h; exact h
    | cons d ds ih =>
      intro acc h
      refine ih (accumDir b player pos acc d) ?_
      unfold accumDir
      split
      · exact sorted_setUnion _ acc h
      · exact h
  exact this directions [] (List.Pairwise.nil)

lemma totalFlippable_cells {b : Board} {player : Nat} {pos a : Int × Int}
    (h : a ∈ totalFlippable b player pos) : b.cells a = oppOf player := by
  obtain ⟨d, _, hmem⟩ := (mem_totalFlippable b player pos a).mp h
  exact mem_findFlippablePieces hmem

/-! ### Board positions: membership, freedom from duplicates, length -/

lemma mem_boardPositions (N : Nat) (p : Int × Int) :
    p ∈ boardPositions N ↔ inBoundsB N p = true := by
  obtain ⟨p1, p2⟩ := p
  unfold boardPositions
  rw [List.mem_map]
  constructor
  · rintro ⟨i, hi, heq⟩
    rw [List.mem_range] at hi
    have hN : N ≠ 0 := by rintro rfl; simp at hi
    have h1 : i / N < N := by
      rw [Nat.div_lt_iff_lt_mul (Nat.pos_of_ne_zero hN)]
      exact hi
    have h2 : i % N < N := Nat.mod_lt i (Nat.pos_of_ne_zero hN)
    rw [Prod.mk.injEq] at heq
    obtain ⟨he1, he2⟩ := heq
    rw [inBoundsB_iff]
    refine ⟨?_, ?_, ?_, ?_⟩
    · rw [← he1]; exact Int.natCast_nonneg _
    · rw [← he1]; exact Nat.cast_lt.mpr h1
    · rw [← he2]; exact Int.natCast_nonneg _
    · rw [← he2]; exact Nat.cast_lt.mpr h2
  · intro h
    rw [inBoundsB_iff] at h
    obtain ⟨hp1, hp1N, hp2, hp2N⟩ := h
    have hN : 0 < N := by omega
    have hb1 : p1.toNat < N := by omega
    have hb2 : p2.toNat < N := by omega
    refine ⟨p2.toNat + p1.toNat * N, ?_, ?_⟩
    · rw [List.mem_range]
      calc p2.toNat + p1.toNat * N < N + p1.toNat * N := by omega
        _ = (p1.toNat + 1) * N := by ring
        _ ≤ N * N := Nat.mul_le_mul_right N (by omega)
    · have hdiv : (p2.toNat + p1.toNat * N) / N = p1.toNat := by
        rw [Nat.add_mul_div_right _ _ hN, Nat.div_eq_of_lt hb2, Nat.zero_add]
      have hmod : (p2.toNat + p1.toNat * N) % N = p2.toNat := by
        rw [Nat.add_mul_mod_self_right, Nat.mod_eq_of_lt hb2]
      rw [hdiv, hmod, Prod.mk.injEq]
      constructor <;> omega

lemma nodup_boardPositions (N : Nat) : (boardPositions N).Nodup := by
  unfold boardPositions
  refine List.Nodup.map ?_ (List.nodup_range _)
  intro i j h
  rw [Prod.mk.injEq] at h
  obtain ⟨h1, h2⟩ := h
  have h1' : i / N = j / N := by omega
  have h2' : i % N = j % N := by omega
  calc i = N * (i / N) + i % N := (Nat.div_add_mod i N).symm
    _ = N * (j / N) + j % N := by rw [h1', h2']
    _ = j := Nat.div_add_mod j N

lemma length_boardPositions (N : Nat) : (boardPositions N).length = N * N := by
  simp [boardPositions]

/-! ### Membership in the generated move map -/

lemma mem_getValidMoves (b : Board) (player : Nat) (pos : Int × Int)
    (caps : List (Int × Int)) :
    (pos, caps) ∈ getValidMoves b player ↔
      inBoundsB b.maxBoardSize pos = true ∧ b.cells pos = 0 ∧
        totalFlippable b player pos ≠ [] ∧
        caps = totalFlippable b player pos := by
  unfold getValidMoves
  rw [List.mem_filterMap]
  constructor
  · rintro ⟨a, ha, heq⟩
    by_cases h0 : b.cells a = 0
    · rw [if_pos h0] at heq
      by_cases hemp : (totalFlippable b player a).isEmpty = true
      · simp only [hemp, if_pos] at heq
        simp at heq
      · rw [Bool.not_eq_true] at hemp
        rw [hemp] at heq
        simp at heq
        obtain ⟨rfl, rfl⟩ := heq
        refine ⟨(mem_boardPositions _ _).mp ha, h0, ?_, rfl⟩
        intro hnil
        rw [hnil] at hemp
        simp at hemp
    · rw [if_neg h0] at heq
      simp at heq
  · rintro ⟨hin, h0, hne, rfl⟩
    refine ⟨pos, (mem_boardPositions _ _).mpr hin, ?_⟩
    rw [if_pos h0]
    have hemp : (totalFlippable b player pos).isEmpty = false := by
      rcases hl : totalFlippable b player pos with _ | ⟨x, xs⟩
      · exact absurd hl hne
      · rfl
    simp only [hemp]
    rfl

lemma mem_getValidMoves_key (b : Board) (player : Nat) (pos : Int × Int) :
    pos ∈ (getValidMoves b player).map Prod.fst ↔
      inBoundsB b.maxBoardSize pos = true ∧ b.cells pos = 0 ∧
        totalFlippable b player pos ≠ [] := by
  rw [List.mem_map]
  constructor
  · rintro ⟨⟨q, caps⟩, hmem, rfl⟩
    have := (mem_getValidMoves b player q caps).mp hmem
    exact ⟨this.1, this.2.1, this.2.2.1⟩
  · rintro ⟨hin, h0, hne⟩
    exact ⟨(pos, totalFlippable b player pos),
      (mem_getValidMoves b player pos _).mpr ⟨hin, h0, hne, rfl⟩, rfl⟩

/-- Claim C2: a position is a key of the generated move map iff it is an
empty in-bounds cell whose 8-direction capture union is non-empty; the
stored value is exactly that union; and on the fresh 4×4 board X's legal
moves are exactly (0,2)→{(1,2)}, (1,3)→{(1,2)}, (2,0)→{(2,1)},
(3,1)→{(2,1)}. -/
theorem C2_getValidMoves_characterization :
    (∀ (b : Board) (player : Nat) (pos : Int × Int),
      pos ∈ (getValidMoves b player).map Prod.fst ↔
        inBoundsB b.maxBoardSize pos = true ∧ b.cells pos = 0 ∧
          totalFlippable b player pos ≠ []) ∧
    (∀ (b : Board) (player : Nat) (pos : Int × Int)
      (caps : List (Int × Int)), (pos, caps) ∈ getValidMoves b player →
        caps = totalFlippable b player pos) ∧
    getValidMoves theBoard4 1 =
      [((0, 2), [(1, 2)]), ((1, 3), [(1, 2)]),
       ((2, 0), [(2, 1)]), ((3, 1), [(2, 1)])] := by
  refine ⟨fun b player pos => mem_getValidMoves_key b player pos,
    fun b player pos caps h => ((mem_getValidMoves b player pos caps).mp h).2.2.2,
    by decide⟩

/-- Witness for C2: the key (0,2) of the fresh 4×4 board satisfies the
characterization, and its stored capture set is the direction union. -/
theorem C2_getValidMoves_characterization_witness :
    (((0, 2) : Int × Int), ([(1, 2)] : List (Int × Int))) ∈
        getValidMoves theBoard4 1 ∧
      ([(1, 2)] : List (Int × Int)) = totalFlippable theBoard4 1 (0, 2) :=
  ⟨by decide, C2_getValidMoves_characterization.2.1 theBoard4 1 (0, 2) [(1, 2)]
    (by decide)⟩

/-! ### Placement: frame conditions and error freedom for legal moves -/

lemma updateCell_cells (b : Board) (p : Int × Int) (v : Nat) (q : Int × Int) :
    (updateCell b p v).cells q = if q = p then v else b.cells q := rfl

lemma updateCell_size (b : Board) (p : Int × Int) (v : Nat) :
    (updateCell b p v).maxBoardSize = b.maxBoardSize := rfl

lemma oppOf_ne_zero (p : Nat) : oppOf p ≠ 0 := by
  unfold oppOf
  split <;> omega

lemma oppOf_cases (p : Nat) : oppOf p = 1 ∨ oppOf p = 2 := by
  unfold oppOf
  split <;> omega

/-- Running the flip loop over distinct occupied squares succeeds, flips
exactly those squares, and leaves everything else unchanged. -/
lemma flipLoop_ok (caps : List (Int × Int)) :
    ∀ b : Board, caps.Nodup → (∀ q ∈ caps, b.cells q ≠ 0) →
      (flipLoop b caps).2 = none ∧
      (flipLoop b caps).1.maxBoardSize = b.maxBoardSize ∧
      ∀ p, (flipLoop b caps).1.cells p =
        if p ∈ caps then flipVal (b.cells p) else b.cells p := by
  induction caps with
  | nil =>
    intro b _ _
    refine ⟨rfl, rfl, fun p => ?_⟩
    simp [flipLoop]
  | cons q rest ih =>
    intro b hnd hne
    have hq : b.cells q ≠ 0 := hne q (List.mem_cons_self q rest)
    have hflip : flipPiece (b.cells q) = .ok (flipVal (b.cells q)) := by
      unfold flipPiece flipVal
      rw [if_neg hq]
    have hstep : flipLoop b (q :: rest) =
        flipLoop (updateCell b q (flipVal (b.cells q))) rest := by
      rw [flipLoop, hflip]
    rw [List.nodup_cons] at hnd
    obtain ⟨hqr, hndr⟩ := hnd
    have hne1 : ∀ p ∈ rest,
        (updateCell b q (flipVal (b.cells q))).cells p ≠ 0 := by
      intro p hp
      have hpq : p ≠ q := fun hc => hqr (hc ▸ hp)
      rw [updateCell_cells, if_neg hpq]
      exact hne p (List.mem_cons_of_mem q hp)
    obtain ⟨h1, h2, h3⟩ := ih (updateCell b q (flipVal (b.cells q))) hndr hne1
    rw [hstep]
    refine ⟨h1, by rw [h2, updateCell_size], ?_⟩
    intro p
    rw [h3 p]
    by_cases hpr : p ∈ rest
    · have hpq : p ≠ q := fun hc => hqr (hc ▸ hpr)
      rw [if_pos hpr, if_pos (List.mem_cons_of_mem q hpr),
        updateCell_cells, if_neg hpq]
    · rw [if_neg hpr]
      by_cases hpq : p = q
      · subst hpq
        rw [if_pos (List.mem_cons_self p rest), updateCell_cells, if_pos rfl]
      · rw [updateCell_cells, if_neg hpq,
          if_neg (by simp [List.mem_cons, hpq, hpr])]

/-- A successful placement: called on an empty target with distinct,
occupied, target-distinct capture squares, `placePiece` reports no error,
sets the target, flips exactly the captures, and changes nothing else. -/
lemma placePiece_ok (b : Board) (pos : Int × Int) (player : Nat)
    (caps : List (Int × Int)) (h0 : b.cells pos = 0) (hnd : caps.Nodup)
    (hq : ∀ q ∈ caps, q ≠ pos ∧ b.cells q ≠ 0) :
    (placePiece b pos player caps).2 = none ∧
    (placePiece b pos player caps).1.maxBoardSize = b.maxBoardSize ∧
    ∀ p, (placePiece b pos player caps).1.cells p =
      if p = pos then player
      else if p ∈ caps then flipVal (b.cells p) else b.cells p := by
  have hset : setPiece (b.cells pos) player = .ok player := by
    unfold setPiece
    rw [if_neg (by simp [h0])]
  have hpp : placePiece b pos player caps =
      flipLoop (updateCell b pos player) caps := by
    unfold placePiece
    rw [hset]
  have hne1 : ∀ q ∈ caps, (updateCell b pos player).cells q ≠ 0 := by
    intro q hq'
    rw [updateCell_cells, if_neg (hq q hq').1]
    exact (hq q hq').2
  obtain ⟨h1, h2, h3⟩ := flipLoop_ok caps (updateCell b pos player) hnd hne1
  rw [hpp]
  refine ⟨h1, by rw [h2, updateCell_size], ?_⟩
  intro p
  rw [h3 p]
  by_cases hppos : p = pos
  · subst hppos
    have hnotc : p ∉ caps := fun hc => (hq p hc).1 rfl
    rw [if_neg hnotc, if_pos rfl, updateCell_cells, if_pos rfl]
  · have hcell : (updateCell b pos player).cells p = b.cells p := by
      rw [updateCell_cells, if_neg hppos]
    rw [hcell, if_neg hppos]

/-- The facts of a legal move needed for placement: the target is an empty
in-bounds cell, and the capture set is duplicate-free, consists of
opponent-owned cells, and avoids the target. -/
lemma legal_move_facts (b : Board) (player : Nat) (pos : Int × Int)
    (caps : List (Int × Int))
    (hmem : (pos, caps) ∈ getValidMoves b player) :
    b.cells pos = 0 ∧ caps.Nodup ∧
      ∀ q ∈ caps, q ≠ pos ∧ b.cells q = oppOf player := by
  obtain ⟨_, h0, _, hcaps⟩ := (mem_getValidMoves b player pos caps).mp hmem
  subst hcaps
  refine ⟨h0, sortedSet_nodup (sorted_totalFlippable b player pos), ?_⟩
  intro q hq
  have hcell := totalFlippable_cells hq
  refine ⟨?_, hcell⟩
  intro hc
  subst hc
  rw [h0] at hcell
  exact oppOf_ne_zero player hcell.symm

/-- Claim C3: applying a legal move `(pos, caps)` sets `pos` to the mover,
flips each captured square from its pre-call owner (which was the
opponent, hence 1 ↔ 2), leaves every other square untouched, and raises no
error. -/
theorem C3_placePiece_effect (b : Board) (player : Nat) (pos : Int × Int)
    (caps : List (Int × Int))
    (hmem : (pos, caps) ∈ getValidMoves b player) :
    (placePiece b pos player caps).1.cells pos = player ∧
    (∀ q ∈ caps,
      (placePiece b pos player caps).1.cells q = flipVal (b.cells q) ∧
      (b.cells q = 1 ∨ b.cells q = 2)) ∧
    (∀ q, q ≠ pos → q ∉ caps →
      (placePiece b pos player caps).1.cells q = b.cells q) ∧
    (placePiece b pos player caps).2 = none := by
  obtain ⟨h0, hnd, hfacts⟩ := legal_move_facts b player pos caps hmem
  obtain ⟨herr, _, hcells⟩ := placePiece_ok b pos player caps h0 hnd
    fun q hq => ⟨(hfacts q hq).1, by
      rw [(hfacts q hq).2]; exact oppOf_ne_zero player⟩
  refine ⟨?_, ?_, ?_, herr⟩
  · rw [hcells pos, if_pos rfl]
  · intro q hq
    refine ⟨?_, ?_⟩
    · rw [hcells q, if_neg (hfacts q hq).1, if_pos hq]
    · rw [(hfacts q hq).2]
      exact oppOf_cases player
  · intro q hqpos hqcaps
    rw [hcells q, if_neg hqpos, if_neg hqcaps]

/-- Witness for C3 at the concrete legal move (0,2) ↦ {(1,2)} on the fresh
4×4 board. -/
theorem C3_placePiece_effect_witness :
    ((((0, 2) : Int × Int), ([(1, 2)] : List (Int × Int))) ∈
        getValidMoves theBoard4 1) ∧
      ((placePiece theBoard4 (0, 2) 1 [(1, 2)]).1.cells (0, 2) = 1 ∧
        (∀ q ∈ ([(1, 2)] : List (Int × Int)),
          (placePiece theBoard4 (0, 2) 1 [(1, 2)]).1.cells q =
            flipVal (theBoard4.cells q) ∧
          (theBoard4.cells q = 1 ∨ theBoard4.cells q = 2)) ∧
        (∀ q, q ≠ ((0, 2) : Int × Int) →
          q ∉ ([(1, 2)] : List (Int × Int)) →
          (placePiece theBoard4 (0, 2) 1 [(1, 2)]).1.cells q =
            theBoard4.cells q) ∧
        (placePiece theBoard4 (0, 2) 1 [(1, 2)]).2 = none) :=
  ⟨by decide, C3_placePiece_effect theBoard4 1 (0, 2) [(1, 2)] (by decide)⟩

/-- Claim C8: a key of the freshly generated move map is an empty cell, so
placing there never raises the occupied-cell error. -/
theorem C8_occupiedCell_unreachable (b : Board) (player : Nat)
    (pos : Int × Int) (caps : List (Int × Int))
    (hmem : (pos, caps) ∈ getValidMoves b player) :
    b.cells pos = 0 ∧
    (placePiece b pos player caps).2 ≠ some PlaceError.occupiedCell := by
  obtain ⟨h0, hnd, hfacts⟩ := legal_move_facts b player pos caps hmem
  obtain ⟨herr, _, _⟩ := placePiece_ok b pos player caps h0 hnd
    fun q hq => ⟨(hfacts q hq).1, by
      rw [(hfacts q hq).2]; exact oppOf_ne_zero player⟩
  refine ⟨h0, ?_⟩
  rw [herr]
  intro hc
  exact Option.noConfusion hc

/-- Witness for C8 at the concrete legal move (2,0) ↦ {(2,1)} on the fresh
4×4 board. -/
theorem C8_occupiedCell_unreachable_witness :
    ((((2, 0) : Int × Int), ([(2, 1)] : List (Int × Int))) ∈
        getValidMoves theBoard4 1) ∧
      (theBoard4.cells (2, 0) = 0 ∧
        (placePiece theBoard4 (2, 0) 1 [(2, 1)]).2 ≠
          some PlaceError.occupiedCell) :=
  ⟨by decide, C8_occupiedCell_unreachable theBoard4 1 (2, 0) [(2, 1)]
    (by decide)⟩

/-! ### Initialization: the seeded center pattern and the size guard -/

lemma inBoundsB_mk (N : Nat) (x y : Int) :
    inBoundsB N (x, y) = true ↔
      0 ≤ x ∧ x < (N : Int) ∧ 0 ≤ y ∧ y < (N : Int) :=
  inBoundsB_iff N (x, y)

lemma countP_eq_length_of_iff {l s : List (Int × Int)} (f : Int × Int → Bool)
    (hl : l.Nodup) (hs : s.Nodup) (hsub : ∀ x ∈ s, x ∈ l)
    (hf : ∀ p, f p = true ↔ p ∈ s) : l.countP f = s.length := by
  rw [List.countP_eq_length_filter]
  have hperm : List.Perm (l.filter f) s := by
    refine List.perm_of_nodup_nodup_toFinset_eq (hl.filter f) hs ?_
    ext a
    rw [List.mem_toFinset, List.mem_toFinset, List.mem_filter]
    constructor
    · rintro ⟨_, hfa⟩
      exact (hf a).mp hfa
    · intro ha
      exact ⟨hsub a ha, (hf a).mpr ha⟩
  exact hperm.length_eq

lemma initCells_other (N : Nat) (p : Int × Int)
    (h1 : p ≠ (((N / 2 : Nat) : Int) - 1, ((N / 2 : Nat) : Int) - 1))
    (h2 : p ≠ (((N / 2 : Nat) : Int) - 1, ((N / 2 : Nat) : Int)))
    (h3 : p ≠ (((N / 2 : Nat) : Int), ((N / 2 : Nat) : Int) - 1))
    (h4 : p ≠ (((N / 2 : Nat) : Int), ((N / 2 : Nat) : Int))) :
    initCells N p = 0 := by
  simp only [initCells]
  rw [if_neg h1, if_neg h2, if_neg h3, if_neg h4]

lemma initCells_center_a (N : Nat) :
    initCells N (((N / 2 : Nat) : Int) - 1, ((N / 2 : Nat) : Int) - 1) = 1 := by
  simp only [initCells]
  simp

lemma initCells_center_b (N : Nat) :
    initCells N (((N / 2 : Nat) : Int) - 1, ((N / 2 : Nat) : Int)) = 2 := by
  simp only [initCells]
  rw [if_neg (by simp only [Prod.mk.injEq]; omega)]
  simp

lemma initCells_center_c (N : Nat) :
    initCells N (((N / 2 : Nat) : Int), ((N / 2 : Nat) : Int) - 1) = 2 := by
  simp only [initCells]
  rw [if_neg (by simp only [Prod.mk.injEq]; omega),
    if_neg (by simp only [Prod.mk.injEq]; omega)]
  simp

lemma initCells_center_d (N : Nat) :
    initCells N (((N / 2 : Nat) : Int), ((N / 2 : Nat) : Int)) = 1 := by
  simp only [initCells]
  rw [if_neg (by simp only [Prod.mk.injEq]; omega),
    if_neg (by simp only [Prod.mk.injEq]; omega),
    if_neg (by simp only [Prod.mk.injEq]; omega)]
  simp

/-- Claim C6: for every N ≥ 4 (odd sizes included), the constructor seeds
exactly 4 occupied cells around `c = N / 2` (floor division): X at
(c-1,c-1) and (c,c), O at (c-1,c) and (c,c-1); every other cell is
empty. -/
theorem C6_initialization_pattern (N : Nat) (hN : 4 ≤ N) :
    mkBoard (N : Int) =
      Except.ok { maxBoardSize := N, cells := initCells N } ∧
    initCells N (((N / 2 : Nat) : Int) - 1, ((N / 2 : Nat) : Int) - 1) = 1 ∧
    initCells N (((N / 2 : Nat) : Int), ((N / 2 : Nat) : Int)) = 1 ∧
    initCells N (((N / 2 : Nat) : Int) - 1, ((N / 2 : Nat) : Int)) = 2 ∧
    initCells N (((N / 2 : Nat) : Int), ((N / 2 : Nat) : Int) - 1) = 2 ∧
    (∀ p : Int × Int,
      p ≠ (((N / 2 : Nat) : Int) - 1, ((N / 2 : Nat) : Int) - 1) →
      p ≠ (((N / 2 : Nat) : Int) - 1, ((N / 2 : Nat) : Int)) →
      p ≠ (((N / 2 : Nat) : Int), ((N / 2 : Nat) : Int) - 1) →
      p ≠ (((N / 2 : Nat) : Int), ((N / 2 : Nat) : Int)) →
      initCells N p = 0) ∧
    ((boardPositions N).countP fun p => decide (initCells N p ≠ 0)) = 4 := by
  have hdiv1 : 2 ≤ N / 2 := by omega
  have hdiv2 : N / 2 < N := by omega
  have hmk : mkBoard (N : Int) =
      Except.ok { maxBoardSize := N, cells := initCells N } := by
    rw [mkBoard, if_neg (by omega)]
    congr 1 <;> · rw [Int.toNat_natCast]
  refine ⟨hmk, initCells_center_a N, initCells_center_d N,
    initCells_center_b N, initCells_center_c N, initCells_other N, ?_⟩
  have hlen :
      ([(((N / 2 : Nat) : Int) - 1, ((N / 2 : Nat) : Int) - 1),
        (((N / 2 : Nat) : Int) - 1, ((N / 2 : Nat) : Int)),
        (((N / 2 : Nat) : Int), ((N / 2 : Nat) : Int) - 1),
        (((N / 2 : Nat) : Int), ((N / 2 : Nat) : Int))] :
          List (Int × Int)).length = 4 := rfl
  rw [← hlen]
  refine countP_eq_length_of_iff _ (nodup_boardPositions N) ?_ ?_ ?_
  · simp only [List.nodup_cons, List.mem_cons, List.not_mem_nil, or_false,
      List.nodup_nil, and_true, not_or, Prod.mk.injEq, not_and]
    norm_num
  · intro x hx
    rw [mem_boardPositions]
    rcases List.mem_cons.mp hx with rfl | hx
    · rw [inBoundsB_mk]
      refine ⟨by omega, by omega, by omega, by omega⟩
    rcases List.mem_cons.mp hx with rfl | hx
    · rw [inBoundsB_mk]
      refine ⟨by omega, by omega, by omega, by omega⟩
    rcases List.mem_cons.mp hx with rfl | hx
    · rw [inBoundsB_mk]
      refine ⟨by omega, by omega, by omega, by omega⟩
    rcases List.mem_cons.mp hx with rfl | hx
    · rw [inBoundsB_mk]
      refine ⟨by omega, by omega, by omega, by omega⟩
    · simp at hx
  · intro p
    rw [decide_eq_true_eq]
    constructor
    · intro hne
      by_contra hnot
      simp only [List.mem_cons, List.not_mem_nil, or_false, not_or] at hnot
      obtain ⟨n1, n2, n3, n4⟩ := hnot
      exact hne (initCells_other N p n1 n2 n3 n4)
    · intro hmem
      rcases List.mem_cons.mp hmem with rfl | hmem
      · rw [initCells_center_a N]
        omega
      rcases List.mem_cons.mp hmem with rfl | hmem
      · rw [initCells_center_b N]
        omega
      rcases List.mem_cons.mp hmem with rfl | hmem
      · rw [initCells_center_c N]
        omega
      rcases List.mem_cons.mp hmem with rfl | hmem
      · rw [initCells_center_d N]
        omega
      · simp at hmem

/-- Witness for C6 at the odd size N = 5. -/
theorem C6_initialization_pattern_witness :
    4 ≤ 5 ∧
      ((boardPositions 5).countP fun p => decide (initCells 5 p ≠ 0)) = 4 :=
  ⟨by omega, (C6_initialization_pattern 5 (by omega)).2.2.2.2.2.2⟩

/-- Claim C7: board construction fails exactly when the requested size is
below 4 (no board is produced then), and on success every in-bounds
position carries a well-defined cell value (empty, X or O). -/
theorem C7_mkBoard_size_guard (size : Int) :
    ((∃ msg, mkBoard size = Except.error msg) ↔ size < 4) ∧
    (∀ b, mkBoard size = Except.ok b →
      b.maxBoardSize = size.toNat ∧
      ∀ p : Int × Int, inBoundsB b.maxBoardSize p = true →
        b.cells p = 0 ∨ b.cells p = 1 ∨ b.cells p = 2) := by
  by_cases h : size < 4
  · rw [mkBoard, if_pos h]
    constructor
    · exact ⟨fun _ => h, fun _ => ⟨_, rfl⟩⟩
    · intro b hb
      exact Except.noConfusion hb
  · rw [mkBoard, if_neg h]
    constructor
    · constructor
      · rintro ⟨msg, hmsg⟩
        exact Except.noConfusion hmsg
      · intro hlt
        exact absurd hlt h
    · intro b hb
      obtain rfl := ((Except.ok.injEq _ _).mp hb).symm
      refine ⟨rfl, ?_⟩
      intro p _
      simp only [initCells]
      split
      · omega
      · split
        · omega
        · split
          · omega
          · split
            · omega
            · omega

/-- Witness for C7: size 3 fails, size 4 succeeds with a total valid
assignment. -/
theorem C7_mkBoard_size_guard_witness :
    (∃ msg, mkBoard 3 = Except.error msg) ∧
      (theBoard4.maxBoardSize = (4 : Int).toNat ∧
        ∀ p : Int × Int, inBoundsB theBoard4.maxBoardSize p = true →
          theBoard4.cells p = 0 ∨ theBoard4.cells p = 1 ∨
            theBoard4.cells p = 2) :=
  ⟨(C7_mkBoard_size_guard 3).1.mpr (by omega),
    (C7_mkBoard_size_guard 4).2 theBoard4 rfl⟩

/-! ### The turn state machine: pass, double-pass termination, winner -/

/-- Claim C4: one loop iteration breaks out (terminal) exactly when the
current player has no legal moves and the previous turn was already a
pass; a single moveless turn is a pass that swaps players with no board
change and no history entry and clears the moved flag; the moved flag is
false after a turn iff that turn produced an empty move map; and the
reported winner is the side with strictly more cells, equal counts being a
draw. -/
theorem C4_termination_and_winner :
    (∀ (s : GameState) (mv : Int × Int) (t : GameState),
      stepGame s mv = some (StepOutcome.gameOver t) →
        t = s ∧ getValidMoves s.board s.currentPlayer = [] ∧
          s.prevPlayerMoved = false) ∧
    (∀ (s : GameState) (mv : Int × Int),
      getValidMoves s.board s.currentPlayer = [] →
        s.prevPlayerMoved = false →
        stepGame s mv = some (StepOutcome.gameOver s)) ∧
    (∀ (s : GameState) (mv : Int × Int),
      getValidMoves s.board s.currentPlayer = [] →
        s.prevPlayerMoved = true →
        ∃ t, stepGame s mv = some (StepOutcome.next t) ∧
          t.board = s.board ∧ t.gameHistory = s.gameHistory ∧
          t.currentPlayer = s.nextPlayer ∧ t.nextPlayer = s.currentPlayer ∧
          t.prevPlayerMoved = false) ∧
    (∀ (s : GameState) (mv : Int × Int) (t : GameState),
      stepGame s mv = some (StepOutcome.next t) →
        (t.prevPlayerMoved = false ↔
          getValidMoves s.board s.currentPlayer = [])) ∧
    (∀ b : Board,
      (showWinner b = GameResult.xWins ↔
        countOwned b 1 > countOwned b 2) ∧
      (showWinner b = GameResult.oWins ↔
        countOwned b 2 > countOwned b 1) ∧
      (showWinner b = GameResult.draw ↔
        countOwned b 1 = countOwned b 2)) := by
  refine ⟨?_, ?_, ?_, ?_, ?_⟩
  · intro s mv t h
    rw [stepGame] at h
    by_cases h0 : (getValidMoves s.board s.currentPlayer).length = 0
    · rw [if_pos h0] at h
      by_cases hp : s.prevPlayerMoved = false
      · rw [if_pos hp] at h
        simp only [Option.some.injEq, StepOutcome.gameOver.injEq] at h
        exact ⟨h.symm, List.length_eq_zero.mp h0, hp⟩
      · rw [if_neg hp] at h
        simp at h
    · rw [if_neg h0] at h
      rcases hlk : lookupMove (getValidMoves s.board s.currentPlayer) mv
          with _ | caps
      · rw [hlk] at h
        simp at h
      · rw [hlk] at h
        dsimp only at h
        rcases hpl : placePiece s.board mv s.currentPlayer caps with ⟨b2, err⟩
        rw [hpl] at h
        rcases err with _ | e
        · simp at h
        · simp at h
  · intro s mv h0 hp
    rw [stepGame, if_pos (by rw [h0]; rfl), if_pos hp]
  · intro s mv h0 hp
    rw [stepGame, if_pos (by rw [h0]; rfl), if_neg (by rw [hp]; simp)]
    exact ⟨_, rfl, rfl, rfl, rfl, rfl, rfl⟩
  · intro s mv t h
    rw [stepGame] at h
    by_cases h0 : (getValidMoves s.board s.currentPlayer).length = 0
    · rw [if_pos h0] at h
      by_cases hp : s.prevPlayerMoved = false
      · rw [if_pos hp] at h
        simp at h
      · rw [if_neg hp] at h
        simp only [Option.some.injEq, StepOutcome.next.injEq] at h
        rw [← h]
        simp only [true_iff]
        exact List.length_eq_zero.mp h0
    · rw [if_neg h0] at h
      rcases hlk : lookupMove (getValidMoves s.board s.currentPlayer) mv
          with _ | caps
      · rw [hlk] at h
        simp at h
      · rw [hlk] at h
        dsimp only at h
        rcases hpl : placePiece s.board mv s.currentPlayer caps with ⟨b2, err⟩
        rw [hpl] at h
        rcases err with _ | e
        · simp only [Option.some.injEq, StepOutcome.next.injEq] at h
          rw [← h]
          simp only
          constructor
          · intro hc
            exact absurd hc (by simp)
          · intro hc
            exact absurd hc fun hnil => h0 (by rw [hnil]; rfl)
        · simp at h
  · intro b
    by_cases h1 : countOwned b 1 > countOwned b 2
    · rw [showWinner, if_pos h1]
      refine ⟨?_, ?_, ?_⟩ <;> simp <;> omega
    · rw [showWinner, if_neg h1]
      by_cases h2 : countOwned b 2 > countOwned b 1
      · rw [if_pos h2]
        refine ⟨?_, ?_, ?_⟩ <;> simp <;> omega
      · rw [if_neg h2]
        refine ⟨?_, ?_, ?_⟩ <;> simp <;> omega

/-- Witness for C4: a state with no legal moves, right after a pass, for
which the step is terminal; on its board X wins the tally. -/
theorem C4_termination_and_winner_witness :
    getValidMoves stuckState.board stuckState.currentPlayer = [] ∧
      stuckState.prevPlayerMoved = false ∧
      stepGame stuckState (0, 0) = some (StepOutcome.gameOver stuckState) ∧
      showWinner fullBoard4 = GameResult.xWins :=
  ⟨by decide, rfl,
    C4_termination_and_winner.2.1 stuckState (0, 0) (by decide) rfl,
    (C4_termination_and_winner.2.2.2.2 fullBoard4).1.mpr (by decide)⟩

/-! ### Conservation of cells along reachable games -/

lemma lookupMove_mem :
    ∀ (vm : List ((Int × Int) × List (Int × Int))) (q : Int × Int) caps,
      lookupMove vm q = some caps → (q, caps) ∈ vm := by
  intro vm
  induction vm with
  | nil =>
    intro q caps h
    simp [lookupMove] at h
  | cons e rest ih =>
    intro q caps h
    rcases e with ⟨k, v⟩
    rw [lookupMove] at h
    by_cases hk : k = q
    · subst hk
      rw [if_pos rfl] at h
      obtain rfl := (Option.some.injEq _ _).mp h
      exact List.mem_cons_self _ _
    · rw [if_neg hk] at h
      exact List.mem_cons_of_mem _ (ih q caps h)

lemma count_three (l : List (Int × Int)) (f : Int × Int → Nat)
    (h : ∀ p ∈ l, f p ≤ 2) :
    l.countP (fun p => decide (f p = 1)) +
      l.countP (fun p => decide (f p = 2)) +
      l.countP (fun p => decide (f p = 0)) = l.length := by
  induction l with
  | nil => simp
  | cons a t ih =>
    have ha := h a (List.mem_cons_self a t)
    have ht := ih fun p hp => h p (List.mem_cons_of_mem a hp)
    simp only [List.countP_cons, List.length_cons]
    rcases (by omega : f a = 0 ∨ f a = 1 ∨ f a = 2) with h0 | h1 | h2
    · simp only [h0]
      simp
      omega
    · simp only [h1]
      simp
      omega
    · simp only [h2]
      simp
      omega

/-- Invariant of reachable states: both player fields are X or O, and
every board cell holds a value in {0, 1, 2}. -/
lemma reachable_invariant (s : GameState) (h : Reachable s) :
    (s.currentPlayer = 1 ∨ s.currentPlayer = 2) ∧
    (s.nextPlayer = 1 ∨ s.nextPlayer = 2) ∧
    ∀ p ∈ boardPositions s.board.maxBoardSize, s.board.cells p ≤ 2 := by
  induction h with
  | init size b hmk =>
    refine ⟨Or.inl rfl, Or.inr rfl, ?_⟩
    rw [mkBoard] at hmk
    by_cases hsz : size < 4
    · rw [if_pos hsz] at hmk
      exact Except.noConfusion hmk
    · rw [if_neg hsz] at hmk
      obtain rfl := ((Except.ok.injEq _ _).mp hmk).symm
      intro p _
      show initCells size.toNat p ≤ 2
      simp only [initCells]
      split
      · omega
      · split
        · omega
        · split
          · omega
          · split
            · omega
            · omega
  | step s t mv hr hstep ih =>
    obtain ⟨hc, hn, hcells⟩ := ih
    rw [stepGame] at hstep
    by_cases h0 : (getValidMoves s.board s.currentPlayer).length = 0
    · rw [if_pos h0] at hstep
      by_cases hp : s.prevPlayerMoved = false
      · rw [if_pos hp] at hstep
        simp at hstep
      · rw [if_neg hp] at hstep
        simp only [Option.some.injEq, StepOutcome.next.injEq] at hstep
        rw [← hstep]
        exact ⟨hn, hc, hcells⟩
    · rw [if_neg h0] at hstep
      rcases hlk : lookupMove (getValidMoves s.board s.currentPlayer) mv
          with _ | caps
      · rw [hlk] at hstep
        simp at hstep
      · rw [hlk] at hstep
        dsimp only at hstep
        rcases hpl : placePiece s.board mv s.currentPlayer caps with ⟨b2, err⟩
        rw [hpl] at hstep
        rcases err with _ | e
        · simp only [Option.some.injEq, StepOutcome.next.injEq] at hstep
          rw [← hstep]
          refine ⟨hn, hc, ?_⟩
          have hmemvm : (mv, caps) ∈ getValidMoves s.board s.currentPlayer :=
            lookupMove_mem _ mv caps hlk
          obtain ⟨hcell0, hnd, hfacts⟩ :=
            legal_move_facts s.board s.currentPlayer mv caps hmemvm
          obtain ⟨_, hsize, hcellchar⟩ :=
            placePiece_ok s.board mv s.currentPlayer caps hcell0 hnd
              fun q hq => ⟨(hfacts q hq).1, by
                rw [(hfacts q hq).2]; exact oppOf_ne_zero _⟩
          rw [hpl] at hsize hcellchar
          intro p hpmem
          show b2.cells p ≤ 2
          have hpmem' : p ∈ boardPositions s.board.maxBoardSize := by
            rw [← hsize]
            exact hpmem
          rw [hcellchar p]
          split
          · rcases hc with h | h <;> omega
          · split
            · simp only [flipVal]
              split
              · omega
              · omega
            · exact hcells p hpmem'
        · simp at hstep

/-- Claim C9: in every reachable state the X-count, O-count and empty
count sum to the squared board size: no cell is ever created, destroyed or
unmapped. -/
theorem C9_cell_conservation (s : GameState) (h : Reachable s) :
    countOwned s.board 1 + countOwned s.board 2 + countOwned s.board 0 =
      s.board.maxBoardSize * s.board.maxBoardSize := by
  obtain ⟨_, _, hcells⟩ := reachable_invariant s h
  unfold countOwned
  rw [count_three (boardPositions s.board.maxBoardSize) s.board.cells hcells,
    length_boardPositions]

/-- Witness for C9: the freshly initialized 4×4 game state (2 + 2 + 12 =
16 cells). -/
theorem C9_cell_conservation_witness :
    Reachable (initialState theBoard4) ∧
      countOwned (initialState theBoard4).board 1 +
        countOwned (initialState theBoard4).board 2 +
        countOwned (initialState theBoard4).board 0 =
      (initialState theBoard4).board.maxBoardSize *
        (initialState theBoard4).board.maxBoardSize :=
  ⟨Reachable.init 4 theBoard4 rfl,
    C9_cell_conservation (initialState theBoard4)
      (Reachable.init 4 theBoard4 rfl)⟩

/-! ### The heuristic move selector -/

lemma movePairLt_irrefl (a : Nat × (Int × Int)) : movePairLt a a = false := by
  obtain ⟨a1, a2⟩ := a
  simp [movePairLt, posLt]

lemma movePairLt_trans {a b c : Nat × (Int × Int)}
    (h1 : movePairLt a b = true) (h2 : movePairLt b c = true) :
    movePairLt a c = true := by
  obtain ⟨a1, a2, a3⟩ := a
  obtain ⟨b1, b2, b3⟩ := b
  obtain ⟨c1, c2, c3⟩ := c
  simp only [movePairLt, posLt, Bool.or_eq_true, Bool.and_eq_true,
    decide_eq_true_eq] at h1 h2 ⊢
  omega

lemma movePairLt_total {a b : Nat × (Int × Int)} (h : a ≠ b) :
    movePairLt a b = true ∨ movePairLt b a = true := by
  obtain ⟨a1, a2, a3⟩ := a
  obtain ⟨b1, b2, b3⟩ := b
  simp only [ne_eq, Prod.mk.injEq, not_and] at h
  simp only [movePairLt, posLt, Bool.or_eq_true, Bool.and_eq_true,
    decide_eq_true_eq]
  by_cases h1 : a1 = b1
  · subst h1
    by_cases h2 : a2 = b2
    · subst h2
      have h3 : a3 ≠ b3 := by
        intro hc
        exact h rfl rfl hc
      omega
    · omega
  · omega

lemma listMax_mem (lt : Nat × (Int × Int) → Nat × (Int × Int) → Bool) :
    ∀ (l : List (Nat × (Int × Int))) (m : Nat × (Int × Int)),
      listMax lt m l ∈ m :: l := by
  intro l
  induction l with
  | nil =>
    intro m
    rw [listMax]
    exact List.mem_cons_self _ _
  | cons x xs ih =>
    intro m
    rw [listMax]
    rcases List.mem_cons.mp (ih (if lt m x then x else m)) with h | h
    · rw [h]
      split
      · exact List.mem_cons_of_mem _ (List.mem_cons_self _ _)
      · exact List.mem_cons_self _ _
    · exact List.mem_cons_of_mem _ (List.mem_cons_of_mem _ h)

lemma listMax_not_lt :
    ∀ (l : List (Nat × (Int × Int))) (m x : Nat × (Int × Int)),
      x ∈ m :: l → movePairLt (listMax movePairLt m l) x = true → False := by
  intro l
  induction l with
  | nil =>
    intro m x hx hlt
    rw [List.mem_singleton] at hx
    subst hx
    rw [listMax, movePairLt_irrefl] at hlt
    exact Bool.false_ne_true hlt
  | cons y ys ih =>
    intro m x hx hlt
    rw [listMax] at hlt
    rcases List.mem_cons.mp hx with rfl | hx'
    · by_cases hmy : movePairLt x y = true
      · rw [if_pos hmy] at hlt
        exact ih y y (List.mem_cons_self _ _) (movePairLt_trans hlt hmy)
      · rw [if_neg hmy] at hlt
        exact ih x x (List.mem_cons_self _ _) hlt
    · rcases List.mem_cons.mp hx' with rfl | hys
      · by_cases hmy : movePairLt m x = true
        · rw [if_pos hmy] at hlt
          exact ih x x (List.mem_cons_self _ _) hlt
        · rw [if_neg hmy] at hlt
          by_cases hmx : m = x
          · subst hmx
            exact ih m m (List.mem_cons_self _ _) hlt
          · rcases movePairLt_total hmx with h1 | h2
            · exact absurd h1 hmy
            · exact ih m m (List.mem_cons_self _ _) (movePairLt_trans hlt h2)
      · exact ih _ x (List.mem_cons_of_mem _ hys) hlt

lemma movePairLt_false {a1 b1 : Nat} {a2 b2 : Int × Int}
    (h : movePairLt (a1, a2) (b1, b2) = false) :
    b1 < a1 ∨ (b1 = a1 ∧ (b2 = a2 ∨ posLt b2 a2 = true)) := by
  by_cases h1 : a1 < b1
  · rw [movePairLt] at h
    simp [h1] at h
  · by_cases h2 : a1 = b1
    · subst h2
      by_cases h3 : posLt a2 b2 = true
      · rw [movePairLt] at h
        simp [h3] at h
      · right
        refine ⟨rfl, ?_⟩
        by_cases h4 : a2 = b2
        · exact Or.inl h4.symm
        · rcases posLt_total h4 with h5 | h5
          · exact absurd h5 h3
          · exact Or.inr h5
    · left
      omega

lemma insSorted_perm (le : Nat × (Int × Int) → Nat × (Int × Int) → Bool)
    (x : Nat × (Int × Int)) :
    ∀ l, List.Perm (insSorted le x l) (x :: l) := by
  intro l
  induction l with
  | nil =>
    rw [insSorted]
  | cons y ys ih =>
    rw [insSorted]
    split
    · exact List.Perm.refl _
    · exact (ih.cons y).trans (List.Perm.swap x y ys)

lemma listSort_perm (le : Nat × (Int × Int) → Nat × (Int × Int) → Bool) :
    ∀ l, List.Perm (listSort le l) l := by
  intro l
  induction l with
  | nil =>
    rw [listSort]
  | cons x xs ih =>
    rw [listSort]
    exact (insSorted_perm le x (listSort le xs)).trans (ih.cons x)

lemma aiSorted_perm (vm : List ((Int × Int) × List (Int × Int))) :
    List.Perm (aiSorted vm) (aiMoves vm) := by
  rw [aiSorted]
  exact listSort_perm _ _

lemma aiMoves_map_snd (vm : List ((Int × Int) × List (Int × Int))) :
    (aiMoves vm).map Prod.snd = vm.map Prod.fst := by
  rw [aiMoves, List.map_map]
  rfl

lemma aiMoves_length (vm : List ((Int × Int) × List (Int × Int))) :
    (aiMoves vm).length = vm.length := List.length_map _ _

lemma aiSorted_key {vm : List ((Int × Int) × List (Int × Int))}
    {z : Nat × (Int × Int)} (hz : z ∈ aiSorted vm) :
    z.2 ∈ vm.map Prod.fst := by
  have hzm : z ∈ aiMoves vm := (aiSorted_perm vm).mem_iff.mp hz
  rw [aiMoves] at hzm
  obtain ⟨e, he, heq⟩ := List.mem_map.mp hzm
  rw [← heq]
  exact List.mem_map.mpr ⟨e, he, rfl⟩

/-- Claim C5 as stated is FALSE on the code: on the tails (greedy) branch
ties in capture-set size are broken by the priority queue's pair ordering,
which yields the LARGEST key in row-major order, not the first.  On the
fresh 4×4 board all four of X's moves capture one cell each; the first key
in row-major order is (0,2), yet the greedy branch returns (3,1). -/
theorem C5_counterexample_greedy_tiebreak :
    getValidMoves theBoard4 1 =
      [((0, 2), [(1, 2)]), ((1, 3), [(1, 2)]),
       ((2, 0), [(2, 1)]), ((3, 1), [(2, 1)])] ∧
    getAIMove (getValidMoves theBoard4 1) 1 0 = (3, 1) ∧
    getAIMove (getValidMoves theBoard4 1) 1 0 ≠ (0, 2) :=
  ⟨by decide, by decide, by decide⟩

/-- Claim C5 (amended): for every non-empty generated move map, the
selector always returns a key; on the heads branch the random index sweeps
out exactly the keys (one index per key: uniform); on the tails branch the
returned key has maximal capture-set cardinality, ties broken by taking
the LAST such key in row-major order (every other max-cardinality key
strictly precedes it). -/
theorem C5_getAIMove_selection (b : Board) (player : Nat)
    (vm : List ((Int × Int) × List (Int × Int)))
    (hvm : vm = getValidMoves b player) (hne : vm ≠ []) :
    (∀ r1 r2 : Nat, getAIMove vm r1 r2 ∈ vm.map Prod.fst) ∧
    (∀ r1 : Nat, r1 % 2 = 0 →
      List.Perm ((List.range vm.length).map fun i => getAIMove vm r1 i)
        (vm.map Prod.fst)) ∧
    (∀ r1 r2 : Nat, r1 % 2 ≠ 0 →
      ∃ capsg, (getAIMove vm r1 r2, capsg) ∈ vm ∧
        ∀ q capsq, (q, capsq) ∈ vm →
          capsq.length < capsg.length ∨
            (capsq.length = capsg.length ∧
              (q = getAIMove vm r1 r2 ∨
                posLt q (getAIMove vm r1 r2) = true))) := by
  rcases hs : aiSorted vm with _ | ⟨m, ms⟩
  · exfalso
    have hlen := (aiSorted_perm vm).length_eq
    rw [hs, aiMoves_length] at hlen
    exact hne (List.length_eq_zero.mp hlen.symm)
  · have hlen : (m :: ms).length = vm.length := by
      have h := (aiSorted_perm vm).length_eq
      rw [hs, aiMoves_length] at h
      exact h
    have hlen0 : 0 < (m :: ms).length := by simp
    have hunfold : ∀ r1 r2 : Nat, getAIMove vm r1 r2 =
        if r1 % 2 = 0 then ((m :: ms).getD (r2 % (m :: ms).length) m).2
        else (listMax movePairLt m ms).2 := by
      intro r1 r2
      rw [getAIMove, hs]
    have hkey : ∀ z ∈ m :: ms, z.2 ∈ vm.map Prod.fst := by
      intro z hz
      refine aiSorted_key ?_
      rw [hs]
      exact hz
    refine ⟨?_, ?_, ?_⟩
    · intro r1 r2
      rw [hunfold r1 r2]
      split
      · have hidx : r2 % (m :: ms).length < (m :: ms).length :=
          Nat.mod_lt _ hlen0
        rw [List.getD_eq_getElem _ _ hidx]
        exact hkey _ (List.getElem_mem hidx)
      · exact hkey _ (listMax_mem movePairLt ms m)
    · intro r1 hr1
      have hmap : ((List.range vm.length).map fun i => getAIMove vm r1 i) =
          (m :: ms).map Prod.snd := by
        refine List.ext_get ?_ ?_
        · simp only [List.length_map, List.length_range]
          exact hlen.symm
        · intro n h1 h2
          have hn2 : n < (m :: ms).length := by
            rw [List.length_map] at h2
            exact h2
          simp only [List.get_map, List.get_range]
          rw [hunfold r1 n, if_pos hr1, Nat.mod_eq_of_lt hn2,
            List.getD_eq_getElem _ _ hn2]
          simp
      rw [hmap]
      have h2 : List.Perm ((m :: ms).map Prod.snd)
          ((aiMoves vm).map Prod.snd) := by
        refine List.Perm.map Prod.snd ?_
        rw [← hs]
        exact aiSorted_perm vm
      rw [aiMoves_map_snd] at h2
      exact h2
    · intro r1 r2 hr1
      rw [hunfold r1 r2, if_neg hr1]
      have hpmmem : listMax movePairLt m ms ∈ m :: ms :=
        listMax_mem movePairLt ms m
      have hpmmoves : listMax movePairLt m ms ∈ aiMoves vm := by
        refine (aiSorted_perm vm).mem_iff.mp ?_
        rw [hs]
        exact hpmmem
      rw [aiMoves] at hpmmoves
      obtain ⟨e, he, heq⟩ := List.mem_map.mp hpmmoves
      rw [← heq]
      dsimp only
      refine ⟨e.2, ?_, ?_⟩
      · rw [Prod.mk.eta]
        exact he
      · intro q capsq hqmem
        have hqmoves : (capsq.length, q) ∈ m :: ms := by
          have hm1 : (capsq.length, q) ∈ aiMoves vm := by
            rw [aiMoves]
            exact List.mem_map.mpr ⟨(q, capsq), hqmem, rfl⟩
          have hm2 := (aiSorted_perm vm).mem_iff.mpr hm1
          rw [hs] at hm2
          exact hm2
        have hnotlt : movePairLt (listMax movePairLt m ms)
            (capsq.length, q) = false :=
          Bool.eq_false_iff.mpr fun hc => listMax_not_lt ms m _ hqmoves hc
        rw [← heq] at hnotlt
        rcases movePairLt_false hnotlt with h | ⟨hl, hq⟩
        · exact Or.inl h
        · exact Or.inr ⟨hl, hq⟩

/-- Witness for the amended C5 at the fresh 4×4 board's move map. -/
theorem C5_getAIMove_selection_witness :
    getValidMoves theBoard4 1 ≠ [] ∧
      getAIMove (getValidMoves theBoard4 1) 1 0 ∈
        (getValidMoves theBoard4 1).map Prod.fst :=
  ⟨by decide,
    (C5_getAIMove_selection theBoard4 1 (getValidMoves theBoard4 1) rfl
      (by decide)).1 1 0⟩

/-! ### Non-atomicity of placement on a failing flip -/

/-- If the flip loop fails, the failing square was empty, every square
before it (in iteration order) has already been flipped, and squares
outside the list are untouched. -/
lemma flipLoop_error (caps : List (Int × Int)) :
    ∀ b : Board, caps.Nodup →
      (flipLoop b caps).2 = some PlaceError.emptyCellFlip →
      ∃ pre q post, caps = pre ++ q :: post ∧ b.cells q = 0 ∧
        (∀ r ∈ pre, b.cells r ≠ 0 ∧
          (flipLoop b caps).1.cells r = flipVal (b.cells r)) ∧
        ∀ p, p ∉ caps → (flipLoop b caps).1.cells p = b.cells p := by
  induction caps with
  | nil =>
    intro b _ herr
    rw [flipLoop] at herr
    simp at herr
  | cons q rest ih =>
    intro b hnd herr
    rw [List.nodup_cons] at hnd
    obtain ⟨hqr, hndr⟩ := hnd
    by_cases hq : b.cells q = 0
    · have hfq : flipPiece (b.cells q) = .error .emptyCellFlip := by
        rw [flipPiece, if_pos hq]
      have hloop : flipLoop b (q :: rest) =
          (b, some PlaceError.emptyCellFlip) := by
        rw [flipLoop, hfq]
      refine ⟨[], q, rest, rfl, hq, ?_, ?_⟩
      · intro r hr
        simp at hr
      · intro p _
        rw [hloop]
    · have hfq : flipPiece (b.cells q) = .ok (flipVal (b.cells q)) := by
        rw [flipPiece, if_neg hq, flipVal]
      have hloop : flipLoop b (q :: rest) =
          flipLoop (updateCell b q (flipVal (b.cells q))) rest := by
        rw [flipLoop, hfq]
      rw [hloop] at herr
      obtain ⟨pre', q', post', hsplit, hq', hpre', hout'⟩ :=
        ih (updateCell b q (flipVal (b.cells q))) hndr herr
      have hqnotrest : ∀ r ∈ rest,
          (updateCell b q (flipVal (b.cells q))).cells r = b.cells r := by
        intro r hr
        rw [updateCell_cells, if_neg (by intro hc; rw [hc] at hr; exact hqr hr)]
      refine ⟨q :: pre', q', post', by rw [hsplit]; rfl, ?_, ?_, ?_⟩
      · rw [← hqnotrest q' (by rw [hsplit]; exact
          List.mem_append_right _ (List.mem_cons_self _ _))]
        exact hq'
      · intro r hr
        rcases List.mem_cons.mp hr with rfl | hrpre
        · refine ⟨hq, ?_⟩
          rw [hloop, hout' r hqr, updateCell_cells, if_pos rfl]
        · have hrrest : r ∈ rest := by
            rw [hsplit]
            exact List.mem_append_left _ hrpre
          obtain ⟨hr0, hrflip⟩ := hpre' r hrpre
          rw [hqnotrest r hrrest] at hr0
          refine ⟨hr0, ?_⟩
          rw [hloop, hrflip, hqnotrest r hrrest]
      · intro p hp
        have hpq : p ≠ q := fun hc => hp (hc ▸ List.mem_cons_self _ _)
        have hprest : p ∉ rest := fun hc =>
          hp (List.mem_cons_of_mem _ hc)
        rw [hloop, hout' p hprest, updateCell_cells, if_neg hpq]

/-- Claim C10 as stated is FALSE in one corner: the claim quantifies over
every capture set, but if the set contains `pos` itself ordered before the
offending empty square, the flips run over the freshly placed piece and
the cell at `pos` does NOT hold `Owned(player)` when the error escapes.
Concretely on the fresh 4×4 board with pos = (0,0), player X and capture
set {(0,0), (0,1)} (cell (0,1) is empty), the call raises the
empty-cell-flip error yet leaves (0,0) owned by O, not X. -/
theorem C10_counterexample_pos_in_captures :
    theBoard4.cells (0, 1) = 0 ∧
    (placePiece theBoard4 (0, 0) 1 [(0, 0), (0, 1)]).2 =
      some PlaceError.emptyCellFlip ∧
    (placePiece theBoard4 (0, 0) 1 [(0, 0), (0, 1)]).1.cells (0, 0) ≠ 1 :=
  ⟨by decide, by decide, by decide⟩

/-- Claim C10 (amended): `placePiece` is not atomic on failure.  For a
capture set in `std::set` iteration order (strictly sorted) that does not
contain `pos` itself, if the call raises the empty-cell-flip error then
the board has already been mutated: `pos` already holds `Owned(player)`,
and every capture position before the offending empty one has already
been flipped from its (non-empty) pre-call value; the pre-call state is
not restored. -/
theorem C10_placePiece_not_atomic (b : Board) (pos : Int × Int)
    (player : Nat) (caps : List (Int × Int))
    (hsort : SortedSet caps) (hpos : pos ∉ caps)
    (herr : (placePiece b pos player caps).2 =
      some PlaceError.emptyCellFlip) :
    (placePiece b pos player caps).1.cells pos = player ∧
    ∃ pre q post, caps = pre ++ q :: post ∧ b.cells q = 0 ∧
      ∀ r ∈ pre, b.cells r ≠ 0 ∧
        (placePiece b pos player caps).1.cells r = flipVal (b.cells r) := by
  have h0 : b.cells pos = 0 := by
    by_contra h0
    have hset : setPiece (b.cells pos) player =
        .error PlaceError.occupiedCell := by
      rw [setPiece, if_pos h0]
    rw [placePiece, hset] at herr
    simp at herr
  have hset : setPiece (b.cells pos) player = .ok player := by
    rw [setPiece, if_neg (by simp [h0])]
  have hpp : placePiece b pos player caps =
      flipLoop (updateCell b pos player) caps := by
    rw [placePiece, hset]
  rw [hpp] at herr ⊢
  have hb1 : ∀ r ∈ caps, (updateCell b pos player).cells r = b.cells r := by
    intro r hr
    rw [updateCell_cells, if_neg (by intro hc; rw [hc] at hr; exact hpos hr)]
  obtain ⟨pre, q, post, hsplit, hq0, hpre, hout⟩ :=
    flipLoop_error caps (updateCell b pos player)
      (sortedSet_nodup hsort) herr
  refine ⟨?_, pre, q, post, hsplit, ?_, ?_⟩
  · rw [hout pos hpos, updateCell_cells, if_pos rfl]
  · rw [← hb1 q (by rw [hsplit]; exact
      List.mem_append_right _ (List.mem_cons_self _ _))]
    exact hq0
  · intro r hr
    have hrcaps : r ∈ caps := by
      rw [hsplit]
      exact List.mem_append_left _ hr
    obtain ⟨hr0, hrflip⟩ := hpre r hr
    rw [hb1 r hrcaps] at hr0
    refine ⟨hr0, ?_⟩
    rw [hrflip, hb1 r hrcaps]

/-- Witness for the amended C10: on the fresh 4×4 board, placing X at
(0,0) with capture list [(1,1), (1,3)] flips (1,1) and then fails on the
empty (1,3), leaving (0,0) = X and (1,1) flipped. -/
theorem C10_placePiece_not_atomic_witness :
    SortedSet [((1 : Int), (1 : Int)), ((1 : Int), (3 : Int))] ∧
      ((0, 0) : Int × Int) ∉ [((1 : Int), (1 : Int)), ((1 : Int), (3 : Int))] ∧
      (placePiece theBoard4 (0, 0) 1 [(1, 1), (1, 3)]).2 =
        some PlaceError.emptyCellFlip ∧
      ((placePiece theBoard4 (0, 0) 1 [(1, 1), (1, 3)]).1.cells (0, 0) = 1 ∧
        ∃ pre q post,
          ([((1 : Int), (1 : Int)), ((1 : Int), (3 : Int))] :
              List (Int × Int)) = pre ++ q :: post ∧
            theBoard4.cells q = 0 ∧
            ∀ r ∈ pre, theBoard4.cells r ≠ 0 ∧
              (placePiece theBoard4 (0, 0) 1 [(1, 1), (1, 3)]).1.cells r =
                flipVal (theBoard4.cells r)) :=
  ⟨by unfold SortedSet; decide, by decide, by decide,
    C10_placePiece_not_atomic theBoard4 (0, 0) 1 [(1, 1), (1, 3)]
      (by unfold SortedSet; decide) (by decide) (by decide)⟩
